import Mathlib

/-!
Verification of the mixed-state tensor evolution engine of
`pennylane/devices/default_mixed.py`.

The device state is a rank-2N complex tensor (N wires, every axis of
dimension 2): axes `0..N-1` are the "row" qubit indices and axes `N..2N-1`
the "column" qubit indices of the `2^N × 2^N` matrix form.  We embed such a
tensor as a curried function on bit assignments `(Fin N → Bool)`, one for the
row axes and one for the column axes; scalars live in an arbitrary
commutative star ring (instantiated with `ℂ` in the real device, with `ℤ`
in concrete witnesses below).  An einsum contraction is embedded as the
finite sum it denotes; the string-label bookkeeping of the source
(`ABC`-letter indices) becomes explicit re-assignment of tensor axes
(`override` below).
-/

namespace DefaultMixed

/-- The rank-2N density tensor `self._state`: first argument assigns the N row
axes, second argument assigns the N column axes. -/
abbrev DTensor (N : ℕ) (R : Type) := (Fin N → Bool) → (Fin N → Bool) → R

/-- A Kraus operator acting on `k` wires, reshaped to rank 2k exactly as in
`_apply_channel` (`kraus_shape = [len(kraus)] + [2] * num_ch_wires * 2`):
first the `k` output (row) bits, then the `k` input (column) bits. -/
abbrev KrausOp (k : ℕ) (R : Type) := (Fin k → Bool) → (Fin k → Bool) → R

/-- Re-assignment of the N row (or column) axes used by a channel acting on the
wires `w : Fin k → Fin N`: the axis `w t` receives the contracted value `a t`,
every axis not hit by `w` keeps the ambient assignment `r`.  This is the
semantic content of the einsum label replacement performed by
`functools.reduce(... .replace ...)` in `_apply_channel`. -/
def override {N k : ℕ} (r : Fin N → Bool) (w : Fin k → Fin N) (a : Fin k → Bool) :
    Fin N → Bool :=
  fun j =>
    match (List.finRange k).find? (fun t => w t == j) with
    | some t => a t
    | none => r j

theorem override_apply_of_not_hit {N k : ℕ} (r : Fin N → Bool) (w : Fin k → Fin N)
    (a : Fin k → Bool) (j : Fin N) (h : ∀ t, w t ≠ j) : override r w a j = r j := by
  unfold override
  cases hf : (List.finRange k).find? (fun t => w t == j) with
  | none => rfl
  | some t =>
    have ht := List.find?_some hf
    exact absurd (by simpa using ht) (h t)

theorem override_apply_hit {N k : ℕ} (r : Fin N → Bool) (w : Fin k → Fin N)
    (a : Fin k → Bool) (t : Fin k) (hw : Function.Injective w) :
    override r w a (w t) = a t := by
  unfold override
  cases hf : (List.finRange k).find? (fun s => w s == w t) with
  | none =>
    have := List.find?_eq_none.mp hf t (List.mem_finRange t)
    simp at this
  | some s =>
    have hs := List.find?_some hf
    have : w s = w t := by simpa using hs
    simpa using congrArg a (hw this)

/-- Filling the channel axes with the values the ambient assignment already has
there is the identity (no injectivity needed). -/
theorem override_self {N k : ℕ} (r : Fin N → Bool) (w : Fin k → Fin N) :
    override r w (fun t => r (w t)) = r := by
  funext j
  unfold override
  cases hf : (List.finRange k).find? (fun t => w t == j) with
  | none => rfl
  | some t =>
    have ht := List.find?_some hf
    have : w t = j := by simpa using ht
    simp [this]

theorem override_comp {N k : ℕ} (r : Fin N → Bool) (w : Fin k → Fin N)
    (a : Fin k → Bool) (hw : Function.Injective w) :
    (fun t => override r w a (w t)) = a := by
  funext t; exact override_apply_hit r w a t hw

/-- An arbitrary assignment `m` of the 2N axes that agrees with `r` off the
channel wires is recovered by overriding `r` with the values `m` takes on the
channel wires (no injectivity needed). -/
theorem override_restrict {N k : ℕ} (r m : Fin N → Bool) (w : Fin k → Fin N)
    (hm : ∀ j, (∀ t, w t ≠ j) → m j = r j) :
    override r w (fun t => m (w t)) = m := by
  funext j
  unfold override
  cases hf : (List.finRange k).find? (fun t => w t == j) with
  | none =>
    have hnone := List.find?_eq_none.mp hf
    refine (hm j fun t hwt => ?_).symm
    exact absurd (by simpa using hwt) (by simpa using hnone t (List.mem_finRange t))
  | some t =>
    have ht := List.find?_some hf
    have : w t = j := by simpa using ht
    simp [this]

section Channel

variable {N k : ℕ} {R : Type} [CommRing R] [StarRing R]

/-- Embedding of `DefaultMixed._apply_channel` (default_mixed.py:407-461): the einsum
`K[i, new_row, row] , ρ[...] , K†[i, col, new_col] -> ρ'[...]` where the row
axes of ρ at the channel wires are contracted against the input legs of `K`,
the column axes against the input legs of `K†` (`K†[i,col,new_col] =
conj K[i,new_col,col]`), the Kraus-stacking index `i` is summed, and all
axes untouched by `w` pass through unchanged. -/
def _apply_channel (kraus : List (KrausOp k R)) (w : Fin k → Fin N) (ρ : DTensor N R) :
    DTensor N R :=
  fun r c =>
    (kraus.map (fun K =>
      ∑ a : Fin k → Bool, ∑ b : Fin k → Bool,
        K (fun t => r (w t)) a * ρ (override r w a) (override c w b)
          * star (K (fun t => c (w t)) b))).sum

/-- First `tensordot` of `_apply_channel_tensordot._conjugate_state_with`
(default_mixed.py:489-494): `qnp.tensordot(k, self._state, axes_left)` with
`axes_left = [channel_col_ids, row_wires_list]` — the input legs of `K` are
contracted against the row axes of ρ at the channel wires.  The contracted row
axes are re-parametrised through `override` (their ambient values are never
consulted). -/
def tensordot_left (w : Fin k → Fin N) (K : KrausOp k R) (ρ : DTensor N R) :
    (Fin k → Bool) → (Fin N → Bool) → (Fin N → Bool) → R :=
  fun x rRest c => ∑ a : Fin k → Bool, K x a * ρ (override rRest w a) c

/-- Second `tensordot` of `_conjugate_state_with`:
`qnp.tensordot(..., qnp.conj(k), axes_right)` with
`axes_right = [col_wires_list, channel_col_ids]` — the column axes of ρ at the
channel wires are contracted against the input legs of `conj(K)`, whose output
legs are appended at the end. -/
def tensordot_right (w : Fin k → Fin N)
    (T : (Fin k → Bool) → (Fin N → Bool) → (Fin N → Bool) → R) (K : KrausOp k R) :
    (Fin k → Bool) → (Fin N → Bool) → (Fin N → Bool) → (Fin k → Bool) → R :=
  fun x rRest cRest y => ∑ b : Fin k → Bool, T x rRest (override cRest w b) * star (K y b)

/-- Embedding of `_conjugate_state_with` (default_mixed.py:489-494): the double tensordot
`k @ ρ @ conj(k)`. -/
def _conjugate_state_with (w : Fin k → Fin N) (K : KrausOp k R) (ρ : DTensor N R) :
    (Fin k → Bool) → (Fin N → Bool) → (Fin N → Bool) → (Fin k → Bool) → R :=
  tensordot_right w (tensordot_left w K ρ) K

/-- The final `qnp.moveaxis(_state, source_left + source_right, dest_left +
dest_right)` (default_mixed.py:501-508): the `k` leading Kraus row axes go back
to the target row positions, the `k` trailing conjugate axes to the target
column positions. -/
def moveaxis (w : Fin k → Fin N)
    (T : (Fin k → Bool) → (Fin N → Bool) → (Fin N → Bool) → (Fin k → Bool) → R) :
    DTensor N R :=
  fun r c => T (fun t => r (w t)) r c (fun t => c (w t))

/-- Embedding of `DefaultMixed._apply_channel_tensordot` (default_mixed.py:463-508): apply
each Kraus operator by direct axis contraction, sum over the Kraus operators
when there is more than one (`qnp.sum(qnp.stack(...), axis=0)`), and move the
affected axes back to their destinations. -/
def _apply_channel_tensordot (kraus : List (KrausOp k R)) (w : Fin k → Fin N)
    (ρ : DTensor N R) : DTensor N R :=
  moveaxis w
    (match kraus with
     | [K] => _conjugate_state_with w K ρ
     | _ => (kraus.map (fun K => _conjugate_state_with w K ρ)).sum)

/-- Embedding of `DefaultMixed._apply_diagonal_unitary` (default_mixed.py:510-539): the
einsum `eig[row], ρ[rows,cols,...], conj(eig)[col] -> ρ[rows,cols,...]` — a
purely diagonal update of the axes touched by `w`, all output axes keeping
their input labels. -/
def _apply_diagonal_unitary (eig : (Fin k → Bool) → R) (w : Fin k → Fin N)
    (ρ : DTensor N R) : DTensor N R :=
  fun r c => eig (fun t => r (w t)) * ρ r c * star (eig (fun t => c (w t)))

/-- The diagonal matrix of an eigenvalue vector, reshaped to rank 2k; the
single Kraus operator a diagonal-in-z-basis gate denotes. -/
def diag_kraus (eig : (Fin k → Bool) → R) : KrausOp k R :=
  fun x y => if x = y then eig x else 0

end Channel

section C8Proof

variable {N k : ℕ} {R : Type} [CommRing R] [StarRing R]

theorem apply_channel_single (K : KrausOp k R) (w : Fin k → Fin N) (ρ : DTensor N R)
    (r c : Fin N → Bool) :
    _apply_channel [K] w ρ r c =
      ∑ a : Fin k → Bool, ∑ b : Fin k → Bool,
        K (fun t => r (w t)) a * ρ (override r w a) (override c w b)
          * star (K (fun t => c (w t)) b) := by
  simp [_apply_channel]

/-- C8: the diagonal fast path is the claimed component-wise update, and it
agrees with applying the diagonal matrix as a one-element Kraus channel through
the general labeled contraction. -/
theorem diagonal_unitary_componentwise_and_channel (eig : (Fin k → Bool) → R)
    (w : Fin k → Fin N) (ρ : DTensor N R) :
    (∀ r c, _apply_diagonal_unitary eig w ρ r c =
        eig (fun t => r (w t)) * ρ r c * star (eig (fun t => c (w t)))) ∧
      _apply_diagonal_unitary eig w ρ = _apply_channel [diag_kraus eig] w ρ := by
  refine ⟨fun r c => rfl, ?_⟩
  funext r c
  rw [apply_channel_single]
  have collapse :
      ∑ a : Fin k → Bool, ∑ b : Fin k → Bool,
        diag_kraus eig (fun t => r (w t)) a * ρ (override r w a) (override c w b)
          * star (diag_kraus eig (fun t => c (w t)) b)
      = eig (fun t => r (w t)) * ρ r c * star (eig (fun t => c (w t))) := by
    rw [Finset.sum_eq_single (fun t => r (w t))]
    · rw [Finset.sum_eq_single (fun t => c (w t))]
      · simp [diag_kraus, override_self]
      · intro b _ hb
        simp [diag_kraus, Ne.symm hb]
      · intro h
        exact absurd (Finset.mem_univ _) h
    · intro a _ ha
      simp [diag_kraus, Ne.symm ha]
    · intro h
      exact absurd (Finset.mem_univ _) h
  rw [collapse]
  rfl

end C8Proof

/-- The numeric backend reported by `qml.math.get_interface` in
`_apply_operation` (default_mixed.py:789); only membership in
`{"autograd", "numpy"}` matters for strategy selection. -/
inductive Interface where
  | autograd
  | numpy
  | other
deriving DecidableEq

section C2Proof

variable {N k : ℕ} {R : Type} [CommRing R] [StarRing R]

/-- The channel branch of `DefaultMixed._apply_operation`
(default_mixed.py:788-795): tensordot for more than 2 wires on
autograd/numpy, tensordot for more than 7 wires on any backend,
einsum otherwise. -/
def _apply_operation_channel (itf : Interface) (kraus : List (KrausOp k R))
    (w : Fin k → Fin N) (ρ : DTensor N R) : DTensor N R :=
  if (2 < k ∧ (itf = Interface.autograd ∨ itf = Interface.numpy)) ∨ 7 < k then
    _apply_channel_tensordot kraus w ρ
  else
    _apply_channel kraus w ρ

theorem list_sum_apply4 {A B C D : Type}
    (ls : List (A → B → C → D → R)) (x : A) (y : B) (z : C) (u : D) :
    ls.sum x y z u = (ls.map (fun T => T x y z u)).sum := by
  induction ls with
  | nil => rfl
  | cons h t ih => simp [List.sum_cons, ih]

theorem conjugate_state_moveaxis (K : KrausOp k R) (w : Fin k → Fin N)
    (ρ : DTensor N R) (r c : Fin N → Bool) :
    _conjugate_state_with w K ρ (fun t => r (w t)) r c (fun t => c (w t)) =
      ∑ a : Fin k → Bool, ∑ b : Fin k → Bool,
        K (fun t => r (w t)) a * ρ (override r w a) (override c w b)
          * star (K (fun t => c (w t)) b) := by
  simp only [_conjugate_state_with, tensordot_right, tensordot_left, Finset.sum_mul]
  exact Finset.sum_comm

/-- C2: for every Kraus list, wire map and state, the direct-axis (tensordot)
contraction yields exactly the same updated tensor as the general labeled
(einsum) contraction, and therefore the dispatcher of `_apply_operation`
returns the einsum result whichever strategy its wire-count/backend test
selects. -/
theorem tensordot_strategy_equivalence (kraus : List (KrausOp k R))
    (w : Fin k → Fin N) (ρ : DTensor N R) :
    _apply_channel_tensordot kraus w ρ = _apply_channel kraus w ρ ∧
      ∀ itf : Interface, _apply_operation_channel itf kraus w ρ = _apply_channel kraus w ρ := by
  have main : _apply_channel_tensordot kraus w ρ = _apply_channel kraus w ρ := by
    funext r c
    show moveaxis w _ r c = _
    match kraus with
    | [] => simp [moveaxis, _apply_channel]
    | [K] =>
      show _conjugate_state_with w K ρ _ r c _ = _
      rw [conjugate_state_moveaxis, apply_channel_single]
    | K₁ :: K₂ :: rest =>
      show ((K₁ :: K₂ :: rest).map (fun K => _conjugate_state_with w K ρ)).sum
            (fun t => r (w t)) r c (fun t => c (w t)) = _
      rw [list_sum_apply4, List.map_map, _apply_channel]
      congr 1
      refine List.map_congr_left fun K _ => ?_
      exact conjugate_state_moveaxis K w ρ r c
  refine ⟨main, fun itf => ?_⟩
  unfold _apply_operation_channel
  split
  · exact main
  · rfl

end C2Proof

section C1Proof

variable {N k : ℕ} {R : Type} [CommRing R] [StarRing R]

/-- Predicate: `m` agrees with `r` on every tensor axis not hit by the channel wires `w`:
the axes the spec says must be "left unchanged". -/
def off_wires_agree {N k : ℕ} (w : Fin k → Fin N) (r m : Fin N → Bool) : Prop :=
  ∀ j, (∀ t, w t ≠ j) → m j = r j

instance {N k : ℕ} (w : Fin k → Fin N) (r m : Fin N → Bool) :
    Decidable (off_wires_agree w r m) := by
  unfold off_wires_agree; infer_instance

/-- The spec-side embedding of a k-wire Kraus operator into the full N-wire
space: `K ⊗ I` with `K` placed on the wires `w` and the identity on every
other wire (matrix entry form). -/
def lift_kraus (K : KrausOp k R) (w : Fin k → Fin N) :
    (Fin N → Bool) → (Fin N → Bool) → R :=
  fun r m =>
    if off_wires_agree w r m then K (fun t => r (w t)) (fun t => m (w t)) else 0

/-- The spec-side channel `ρ' = Σ_i K̃_i ρ K̃_i†` written entrywise with the
embedded operators `K̃_i = lift_kraus K_i w`:
`ρ'(r,c) = Σ_i Σ_{m₁ m₂} K̃_i(r,m₁) · ρ(m₁,m₂) · conj(K̃_i(c,m₂))`. -/
def channel_spec (kraus : List (KrausOp k R)) (w : Fin k → Fin N) (ρ : DTensor N R) :
    DTensor N R :=
  fun r c =>
    (kraus.map (fun K =>
      ∑ m₁ : Fin N → Bool, ∑ m₂ : Fin N → Bool,
        lift_kraus K w r m₁ * ρ m₁ m₂ * star (lift_kraus K w c m₂))).sum

theorem sum_lift_mul (w : Fin k → Fin N) (hw : Function.Injective w) (K : KrausOp k R)
    (r : Fin N → Bool) (g : (Fin N → Bool) → R) :
    ∑ m : Fin N → Bool, lift_kraus K w r m * g m =
      ∑ a : Fin k → Bool, K (fun t => r (w t)) a * g (override r w a) := by
  have step1 : ∑ m : Fin N → Bool, lift_kraus K w r m * g m =
      ∑ m ∈ Finset.univ.filter (fun m => off_wires_agree w r m),
        K (fun t => r (w t)) (fun t => m (w t)) * g m := by
    rw [Finset.sum_filter]
    refine Finset.sum_congr rfl fun m _ => ?_
    by_cases hm : off_wires_agree w r m <;> simp [lift_kraus, hm]
  rw [step1]
  refine Finset.sum_nbij' (fun m => fun t => m (w t)) (fun a => override r w a)
    (fun m _ => Finset.mem_univ _) (fun a _ => ?_) (fun m hm => ?_) (fun a _ => ?_)
    (fun m hm => ?_)
  · refine Finset.mem_filter.mpr ⟨Finset.mem_univ _, fun j hj => ?_⟩
    exact override_apply_of_not_hit r w a j hj
  · exact override_restrict r m w (Finset.mem_filter.mp hm).2
  · exact override_comp r w a hw
  · rw [override_restrict r m w (Finset.mem_filter.mp hm).2]

theorem sum_mul_lift_star (w : Fin k → Fin N) (hw : Function.Injective w)
    (K : KrausOp k R) (c : Fin N → Bool) (g : (Fin N → Bool) → R) :
    ∑ m : Fin N → Bool, g m * star (lift_kraus K w c m) =
      ∑ b : Fin k → Bool, g (override c w b) * star (K (fun t => c (w t)) b) := by
  have step1 : ∑ m : Fin N → Bool, g m * star (lift_kraus K w c m) =
      ∑ m ∈ Finset.univ.filter (fun m => off_wires_agree w c m),
        g m * star (K (fun t => c (w t)) (fun t => m (w t))) := by
    rw [Finset.sum_filter]
    refine Finset.sum_congr rfl fun m _ => ?_
    by_cases hm : off_wires_agree w c m <;> simp [lift_kraus, hm]
  rw [step1]
  refine Finset.sum_nbij' (fun m => fun t => m (w t)) (fun b => override c w b)
    (fun m _ => Finset.mem_univ _) (fun b _ => ?_) (fun m hm => ?_) (fun b _ => ?_)
    (fun m hm => ?_)
  · refine Finset.mem_filter.mpr ⟨Finset.mem_univ _, fun j hj => ?_⟩
    exact override_apply_of_not_hit c w b j hj
  · exact override_restrict c m w (Finset.mem_filter.mp hm).2
  · exact override_comp c w b hw
  · rw [override_restrict c m w (Finset.mem_filter.mp hm).2]

theorem channel_term_eq (w : Fin k → Fin N) (hw : Function.Injective w)
    (K : KrausOp k R) (ρ : DTensor N R) (r c : Fin N → Bool) :
    ∑ m₁ : Fin N → Bool, ∑ m₂ : Fin N → Bool,
        lift_kraus K w r m₁ * ρ m₁ m₂ * star (lift_kraus K w c m₂) =
      ∑ a : Fin k → Bool, ∑ b : Fin k → Bool,
        K (fun t => r (w t)) a * ρ (override r w a) (override c w b)
          * star (K (fun t => c (w t)) b) := by
  have h1 : ∀ m₁, ∑ m₂ : Fin N → Bool,
      lift_kraus K w r m₁ * ρ m₁ m₂ * star (lift_kraus K w c m₂) =
        ∑ b : Fin k → Bool,
          lift_kraus K w r m₁ * ρ m₁ (override c w b) * star (K (fun t => c (w t)) b) :=
    fun m₁ => sum_mul_lift_star w hw K c (fun m₂ => lift_kraus K w r m₁ * ρ m₁ m₂)
  simp only [h1]
  rw [Finset.sum_comm]
  have h2 : ∀ b, ∑ m₁ : Fin N → Bool,
      lift_kraus K w r m₁ * ρ m₁ (override c w b) * star (K (fun t => c (w t)) b) =
        ∑ a : Fin k → Bool,
          K (fun t => r (w t)) a * ρ (override r w a) (override c w b)
            * star (K (fun t => c (w t)) b) := by
    intro b
    have := sum_lift_mul w hw K r
      (fun m₁ => ρ m₁ (override c w b) * star (K (fun t => c (w t)) b))
    simpa only [mul_assoc] using this
  simp only [h2]
  exact Finset.sum_comm

/-- C1: the labeled-contraction path computes exactly
`ρ' = Σ_i K̃_i ρ K̃_i†` where each `K̃_i` is the Kraus operator embedded on the
target wires with the identity on every other axis — i.e. `K_i` contracts the
row axes at `W`, `K_i†` the column axes (row axes shifted by N), and every
axis outside `W` is left unchanged. -/
theorem apply_channel_is_kraus_conjugation (kraus : List (KrausOp k R))
    (w : Fin k → Fin N) (hw : Function.Injective w) (ρ : DTensor N R) :
    _apply_channel kraus w ρ = channel_spec kraus w ρ := by
  funext r c
  unfold _apply_channel channel_spec
  congr 1
  refine List.map_congr_left fun K _ => ?_
  exact (channel_term_eq w hw K ρ r c).symm

def c1_wires : Fin 1 → Fin 1 := fun _ => 0

def c1_kraus : List (KrausOp 1 ℤ) :=
  [fun x y => if x 0 = y 0 then 0 else 1]

def c1_rho : DTensor 1 ℤ :=
  fun r c => if r 0 = false ∧ c 0 = false then 1 else 0

theorem apply_channel_is_kraus_conjugation_witness :
    Function.Injective c1_wires ∧
      _apply_channel c1_kraus c1_wires c1_rho = channel_spec c1_kraus c1_wires c1_rho :=
  ⟨by decide, apply_channel_is_kraus_conjugation c1_kraus c1_wires (by decide) c1_rho⟩

end C1Proof

/-- The assignment of the N axes determined by values `x` on the complement
wires `e` alone (`false` elsewhere); helper for `combine`. -/
def e_fill {N m : ℕ} (e : Fin m → Fin N) (x : Fin m → Bool) : Fin N → Bool :=
  fun j =>
    match (List.finRange m).find? (fun s => e s == j) with
    | some s => x s
    | none => false

theorem e_fill_hit {N m : ℕ} (e : Fin m → Fin N) (x : Fin m → Bool) (s : Fin m)
    (he : Function.Injective e) : e_fill e x (e s) = x s := by
  unfold e_fill
  cases hf : (List.finRange m).find? (fun u => e u == e s) with
  | none =>
    have := List.find?_eq_none.mp hf s (List.mem_finRange s)
    simp at this
  | some u =>
    have hu := List.find?_some hf
    have : e u = e s := by simpa using hu
    simpa using congrArg x (he this)

/-- A full assignment of the N wires from values `a` on the subset wires `w`
and values `x` on the complement wires `e`; the index bookkeeping behind the
`rho.reshape([2] * 2 * self.num_wires)` of the Kronecker product in
`_apply_density_matrix` (complement wires first, then the subset wires). -/
def combine {N k m : ℕ} (w : Fin k → Fin N) (e : Fin m → Fin N)
    (a : Fin k → Bool) (x : Fin m → Bool) : Fin N → Bool :=
  override (e_fill e x) w a

/-- The pair of tensors held by the device: `self._state` and
`self._pre_rotated_state`. -/
structure DeviceState (N : ℕ) (R : Type) where
  _state : DTensor N R
  _pre_rotated_state : DTensor N R

section C5Proof

variable {N k m : ℕ} {R : Type} [CommRing R] [StarRing R]

/-- Modelled from the spec: `sigma = self.density_matrix(Wires(complement_wires))`
(default_mixed.py:654) delegates to `qml.math.reduce_dm`, which is not part of
this file; spec §4.4 defines it as "partial trace of the full matrix-form
state over the complement of `wires`".  Here `e` enumerates the kept wires and
`w` the traced-out wires, so the reduced state sums the diagonal over all
assignments of the `w` wires. -/
def density_matrix_red (w : Fin k → Fin N) (e : Fin m → Fin N) (ρ : DTensor N R) :
    (Fin m → Bool) → (Fin m → Bool) → R :=
  fun x y => ∑ a : Fin k → Bool, ρ (combine w e a x) (combine w e a y)

/-- Embedding of `qnp.kron(sigma, state.reshape(state_dim, state_dim))`
(default_mixed.py:655): the complement block comes first. -/
def kron_dm (σ : (Fin m → Bool) → (Fin m → Bool) → R)
    (M : (Fin k → Bool) → (Fin k → Bool) → R) :
    ((Fin m → Bool) × (Fin k → Bool)) → ((Fin m → Bool) × (Fin k → Bool)) → R :=
  fun p q => σ p.1 q.1 * M p.2 q.2

/-- The `transpose_axes` permutation of `_apply_density_matrix`
(default_mixed.py:658-672): wire `i` of the result reads from the complement
block at `complement_wires.index(i)` when `i` is a complement wire and from
the subset block at `device_wires.index(i)` when `i ∈ device_wires`, for row
and (shifted by N) column axes alike. -/
def transpose_to_wires (w : Fin k → Fin N) (e : Fin m → Fin N)
    (T : ((Fin m → Bool) × (Fin k → Bool)) → ((Fin m → Bool) × (Fin k → Bool)) → R) :
    DTensor N R :=
  fun r c =>
    T (fun s => r (e s), fun t => r (w t)) (fun s => c (e s), fun t => c (w t))

/-- The tensor the partial branch builds from a source tensor:
`qnp.kron(sigma, state.reshape(...))` with `sigma` the complement reduction of
the source, reshaped to rank 2N and permuted back to the original wire order
(default_mixed.py:653-672). -/
def prepared_density_tensor (w : Fin k → Fin N) (e : Fin m → Fin N)
    (M : (Fin k → Bool) → (Fin k → Bool) → R) (σsrc : DTensor N R) : DTensor N R :=
  transpose_to_wires w e (kron_dm (density_matrix_red w e σsrc) M)

/-- Embedding of `DefaultMixed._apply_density_matrix` (default_mixed.py:613-680),
partial branch, on the device's two tensor references: `sigma` is computed
from `self._pre_rotated_state`, because `sigma = self.density_matrix(...)`
(line 654) reads the `state` property (line 354), which returns
`self._pre_rotated_state` (line 341) — *not* `self._state`.  The prepared
tensor then overwrites both `self._state` (line 679) and
`self._pre_rotated_state` (line 680). -/
def _apply_density_matrix (w : Fin k → Fin N) (e : Fin m → Fin N)
    (M : (Fin k → Bool) → (Fin k → Bool) → R) (d : DeviceState N R) : DeviceState N R :=
  { _state := prepared_density_tensor w e M d._pre_rotated_state,
    _pre_rotated_state := prepared_density_tensor w e M d._pre_rotated_state }

/-- Trace of the rank-2N tensor in its `2^N × 2^N` matrix form. -/
def dtrace (ρ : DTensor N R) : R := ∑ r : Fin N → Bool, ρ r r

/-- Trace of a `2^k × 2^k` block (the prepared matrix `M`, or a reduced
state). -/
def block_trace {k : ℕ} (M : (Fin k → Bool) → (Fin k → Bool) → R) : R :=
  ∑ a : Fin k → Bool, M a a

theorem combine_comp_w (w : Fin k → Fin N) (e : Fin m → Fin N) (hw : Function.Injective w)
    (a : Fin k → Bool) (x : Fin m → Bool) :
    (fun t => combine w e a x (w t)) = a := by
  funext t; exact override_apply_hit _ w a t hw

theorem combine_comp_e (w : Fin k → Fin N) (e : Fin m → Fin N)
    (he : Function.Injective e) (hdisj : ∀ t s, w t ≠ e s)
    (a : Fin k → Bool) (x : Fin m → Bool) :
    (fun s => combine w e a x (e s)) = x := by
  funext s
  unfold combine
  rw [override_apply_of_not_hit _ w a (e s) (fun t => hdisj t s)]
  exact e_fill_hit e x s he

theorem combine_surj (w : Fin k → Fin N) (e : Fin m → Fin N)
    (hw : Function.Injective w) (he : Function.Injective e)
    (hdisj : ∀ t s, w t ≠ e s)
    (hsurj : ∀ j, (∃ t, w t = j) ∨ (∃ s, e s = j)) (r : Fin N → Bool) :
    combine w e (fun t => r (w t)) (fun s => r (e s)) = r := by
  funext j
  rcases hsurj j with ⟨t, rfl⟩ | ⟨s, rfl⟩
  · exact congrFun (combine_comp_w w e hw _ _) t
  · exact congrFun (combine_comp_e w e he hdisj _ _) s

/-- Core composition fact about the prepared tensor: its complement reduction
recovers the reduced state of the source tensor, and its trace is 1 when both
`M` and the source tensor have trace 1. -/
theorem density_matrix_compose_core (w : Fin k → Fin N) (e : Fin m → Fin N)
    (hbij : Function.Bijective (Sum.elim w e))
    (M : (Fin k → Bool) → (Fin k → Bool) → R) (hM : block_trace M = 1)
    (ρ : DTensor N R) (hρ : dtrace ρ = 1) :
    density_matrix_red w e (prepared_density_tensor w e M ρ) = density_matrix_red w e ρ ∧
      dtrace (prepared_density_tensor w e M ρ) = 1 := by
  have hw : Function.Injective w := by
    intro t t' h
    have h2 : Sum.elim w e (Sum.inl t) = Sum.elim w e (Sum.inl t') := by simpa using h
    simpa using hbij.injective h2
  have he : Function.Injective e := by
    intro s s' h
    have h2 : Sum.elim w e (Sum.inr s) = Sum.elim w e (Sum.inr s') := by simpa using h
    simpa using hbij.injective h2
  have hdisj : ∀ t s, w t ≠ e s := by
    intro t s h
    have h2 : Sum.elim w e (Sum.inl t) = Sum.elim w e (Sum.inr s) := by simpa using h
    simpa using hbij.injective h2
  have hsurj : ∀ j, (∃ t, w t = j) ∨ (∃ s, e s = j) := by
    intro j
    obtain ⟨p, hp⟩ := hbij.surjective j
    cases p with
    | inl t => exact Or.inl ⟨t, hp⟩
    | inr s => exact Or.inr ⟨s, hp⟩
  have hφ : Function.Bijective
      (fun p : (Fin k → Bool) × (Fin m → Bool) => combine w e p.1 p.2) := by
    constructor
    · intro p q hpq
      have hcq : combine w e p.1 p.2 = combine w e q.1 q.2 := hpq
      have ha : p.1 = q.1 := by
        rw [← combine_comp_w w e hw p.1 p.2, ← combine_comp_w w e hw q.1 q.2, hcq]
      have hx : p.2 = q.2 := by
        rw [← combine_comp_e w e he hdisj p.1 p.2, ← combine_comp_e w e he hdisj q.1 q.2,
          hcq]
      exact Prod.ext ha hx
    · intro r
      exact ⟨(fun t => r (w t), fun s => r (e s)), combine_surj w e hw he hdisj hsurj r⟩
  have heval : ∀ (a : Fin k → Bool) (x y : Fin m → Bool),
      prepared_density_tensor w e M ρ (combine w e a x) (combine w e a y) =
        density_matrix_red w e ρ x y * M a a := by
    intro a x y
    unfold prepared_density_tensor transpose_to_wires kron_dm
    rw [combine_comp_w w e hw, combine_comp_w w e hw, combine_comp_e w e he hdisj,
      combine_comp_e w e he hdisj]
  have red_trace : ∑ x : Fin m → Bool, density_matrix_red w e ρ x x = dtrace ρ := by
    unfold density_matrix_red dtrace
    rw [Finset.sum_comm]
    have h := Fintype.sum_bijective _ hφ
      (fun p : (Fin k → Bool) × (Fin m → Bool) =>
        ρ (combine w e p.1 p.2) (combine w e p.1 p.2))
      (fun r => ρ r r) (fun p => rfl)
    rw [Fintype.sum_prod_type] at h
    exact h
  constructor
  · funext x y
    unfold density_matrix_red
    calc ∑ a : Fin k → Bool,
          prepared_density_tensor w e M ρ (combine w e a x) (combine w e a y)
        = ∑ a : Fin k → Bool, density_matrix_red w e ρ x y * M a a := by
          exact Finset.sum_congr rfl fun a _ => heval a x y
      _ = density_matrix_red w e ρ x y * block_trace M := by
          rw [block_trace, Finset.mul_sum]
      _ = ∑ a : Fin k → Bool, ρ (combine w e a x) (combine w e a y) := by
          rw [hM, mul_one]; rfl
  · unfold dtrace
    have := Fintype.sum_bijective _ hφ
      (fun p : (Fin k → Bool) × (Fin m → Bool) =>
        prepared_density_tensor w e M ρ (combine w e p.1 p.2) (combine w e p.1 p.2))
      (fun r => prepared_density_tensor w e M ρ r r) (fun p => rfl)
    rw [← this, Fintype.sum_prod_type]
    calc ∑ a : Fin k → Bool, ∑ x : Fin m → Bool,
          prepared_density_tensor w e M ρ (combine w e a x) (combine w e a x)
        = ∑ a : Fin k → Bool, ∑ x : Fin m → Bool,
            density_matrix_red w e ρ x x * M a a := by
          exact Finset.sum_congr rfl fun a _ =>
            Finset.sum_congr rfl fun x _ => heval a x x
      _ = ∑ a : Fin k → Bool, dtrace ρ * M a a := by
          refine Finset.sum_congr rfl fun a _ => ?_
          rw [← Finset.sum_mul, red_trace]
      _ = 1 := by
          rw [hρ]
          have : ∑ a : Fin k → Bool, M a a = 1 := hM
          simp [this]

def c5_w : Fin 1 → Fin 2 := fun _ => 0

def c5_e : Fin 1 → Fin 2 := fun _ => 1

def c5_M : (Fin 1 → Bool) → (Fin 1 → Bool) → ℤ :=
  fun a b => if a 0 = true ∧ b 0 = true then 1 else 0

def c5_rho : DTensor 2 ℤ :=
  fun r c => if (∀ j, r j = false) ∧ (∀ j, c j = false) then 1 else 0

def c5x_w : Fin 1 → Fin 2 := fun _ => 1

def c5x_e : Fin 1 → Fin 2 := fun _ => 0

def c5x_state : DTensor 2 ℤ :=
  fun r c => if (r 0 = true ∧ r 1 = false) ∧ (c 0 = true ∧ c 1 = false) then 1 else 0

def c5x_zero : Fin 1 → Bool := fun _ => false

/-- C5 counterexample: a reachable diverged device state refutes the claim as
stated.  From reset both references hold `|00⟩⟨00|`; applying `PauliX(0)`
assigns only `self._state` (default_mixed.py:461), giving `_state = |10⟩⟨10|`
(= `c5x_state`) while `_pre_rotated_state` stays `|00⟩⟨00|` (= `c5_rho`); a
mid-circuit `QubitDensityMatrix` is not rejected (cf. C3).  Preparing the
unit-trace matrix `c5_M = |1⟩⟨1|` on wire 1 (a proper subset; wire 0 is the
complement) then yields a state whose complement reduction is `|0⟩⟨0|` — the
reduction of the pre-rotated reference — and not the pre-existing reduction
`|1⟩⟨1|` of the current rho, even though every hypothesis of the claim (unit
traces, proper wire subset) holds. -/
theorem apply_density_matrix_reads_pre_rotated :
    Function.Bijective (Sum.elim c5x_w c5x_e) ∧
      dtrace c5x_state = 1 ∧ block_trace c5_M = 1 ∧ dtrace c5_rho = 1 ∧
      density_matrix_red c5x_w c5x_e
          (_apply_density_matrix c5x_w c5x_e c5_M ⟨c5x_state, c5_rho⟩)._state ≠
        density_matrix_red c5x_w c5x_e c5x_state := by
  refine ⟨by decide, by decide, by decide, by decide, fun h => ?_⟩
  have h1 : density_matrix_red c5x_w c5x_e
      (_apply_density_matrix c5x_w c5x_e c5_M ⟨c5x_state, c5_rho⟩)._state
        c5x_zero c5x_zero = 1 := by decide
  have h2 : density_matrix_red c5x_w c5x_e c5x_state c5x_zero c5x_zero = 0 := by
    decide
  rw [h] at h1
  rw [h1] at h2
  exact absurd h2 (by decide)

/-- C5 (amended): the partial density-matrix preparation composes with the
reduced state of the *pre-rotated* reference: tracing out the subset from the
new state reproduces the reduced state of `self._pre_rotated_state` on the
complement wires, the new state has trace 1, and whenever the two references
agree (as they do for the first operation of a circuit) this is exactly the
pre-existing reduced state of the working tensor, as originally claimed. -/
theorem apply_density_matrix_frame (w : Fin k → Fin N) (e : Fin m → Fin N)
    (hbij : Function.Bijective (Sum.elim w e))
    (M : (Fin k → Bool) → (Fin k → Bool) → R) (hM : block_trace M = 1)
    (d : DeviceState N R) (hρ : dtrace d._pre_rotated_state = 1) :
    density_matrix_red w e (_apply_density_matrix w e M d)._state =
        density_matrix_red w e d._pre_rotated_state ∧
      dtrace (_apply_density_matrix w e M d)._state = 1 ∧
      (d._pre_rotated_state = d._state →
        density_matrix_red w e (_apply_density_matrix w e M d)._state =
          density_matrix_red w e d._state) := by
  obtain ⟨h1, h2⟩ :=
    density_matrix_compose_core w e hbij M hM d._pre_rotated_state hρ
  exact ⟨h1, h2, fun hagree => by rw [← hagree]; exact h1⟩

theorem apply_density_matrix_frame_witness :
    Function.Bijective (Sum.elim c5_w c5_e) ∧ block_trace c5_M = 1 ∧
      dtrace c5_rho = 1 ∧
      (density_matrix_red c5_w c5_e
            (_apply_density_matrix c5_w c5_e c5_M ⟨c5_rho, c5_rho⟩)._state =
          density_matrix_red c5_w c5_e c5_rho ∧
        dtrace (_apply_density_matrix c5_w c5_e c5_M ⟨c5_rho, c5_rho⟩)._state = 1 ∧
        (c5_rho = c5_rho →
          density_matrix_red c5_w c5_e
              (_apply_density_matrix c5_w c5_e c5_M ⟨c5_rho, c5_rho⟩)._state =
            density_matrix_red c5_w c5_e c5_rho)) :=
  ⟨by decide, by decide, by decide,
    apply_density_matrix_frame c5_w c5_e (by decide) c5_M (by decide)
      ⟨c5_rho, c5_rho⟩ (by decide)⟩

end C5Proof

section C9Defs

/-- Row-major (big-endian) index of a bit assignment of the N row axes: the
index of that assignment in the flattened `2^N`-dimensional view, as used by
`qnp.reshape(rho, [2] * (2 * self.num_wires))` in `_create_basis_state`. -/
def bits_to_index {N : ℕ} (r : Fin N → Bool) : ℕ :=
  ∑ t : Fin N, cond (r t) (2 ^ (N - 1 - (t : ℕ))) 0

/-- Little-endian variant, used to prove injectivity of `bits_to_index`. -/
def bits_to_index_le {N : ℕ} (r : Fin N → Bool) : ℕ :=
  ∑ t : Fin N, cond (r t) (2 ^ (t : ℕ)) 0

/-- Embedding of `DefaultMixed._create_basis_state` (default_mixed.py:308-320): the
`2^N × 2^N` zero matrix with a single 1 at `(index, index)`, reshaped to
rank 2N. -/
def _create_basis_state (N : ℕ) (R : Type) [CommRing R] (index : ℕ) : DTensor N R :=
  fun r c => if bits_to_index r = index ∧ bits_to_index c = index then 1 else 0

/-- Embedding of `basis_states = 2 ** (self.num_wires - 1 - device_wires.toarray())` and
`num = int(qnp.dot(state, basis_states))` (default_mixed.py:562-563). -/
def basis_index {N : ℕ} (bits : List ℕ) (ws : List (Fin N)) : ℕ :=
  ((bits.zip ws).map (fun p => p.1 * 2 ^ (N - 1 - ((p.2 : Fin N) : ℕ)))).sum

/-- Embedding of `DefaultMixed._apply_basis_state` (default_mixed.py:541-565): validate the
bits, validate the lengths, then replace the state with the basis-state
projector at the computed index. -/
def _apply_basis_state {N : ℕ} (R : Type) [CommRing R] (bits : List ℕ)
    (ws : List (Fin N)) : Except String (DTensor N R) :=
  if ¬ (∀ b ∈ bits, b = 0 ∨ b = 1) then
    Except.error "BasisState parameter must consist of 0 or 1 integers."
  else if bits.length ≠ ws.length then
    Except.error "BasisState parameter and wires must be of equal length."
  else
    Except.ok (_create_basis_state N R (basis_index bits ws))

/-- The bit assignment the prepared basis state should denote: wire `ws[i]`
carries `bits[i]`, every other wire carries 0. -/
def target_bits {N : ℕ} (bits : List ℕ) (ws : List (Fin N)) : Fin N → Bool :=
  fun j =>
    match (bits.zip ws).find? (fun p => p.2 == j) with
    | some p => p.1 == 1
    | none => false

/-- The pure projector `|e⟩⟨e|` of a computational basis assignment,
in rank-2N tensor form. -/
def basis_projector {N : ℕ} (R : Type) [CommRing R] (e : Fin N → Bool) : DTensor N R :=
  fun r c => if r = e ∧ c = e then 1 else 0

end C9Defs

section C9Proof

theorem bits_to_index_le_succ {n : ℕ} (r : Fin (n + 1) → Bool) :
    bits_to_index_le r = cond (r 0) 1 0 + 2 * bits_to_index_le (fun t : Fin n => r t.succ) := by
  unfold bits_to_index_le
  rw [Fin.sum_univ_succ]
  have h0 : cond (r 0) (2 ^ (((0 : Fin (n + 1))) : ℕ)) 0 = cond (r 0) 1 0 := by
    cases r 0 <;> simp
  have hs : ∑ t : Fin n, cond (r t.succ) (2 ^ ((t.succ : Fin (n + 1)) : ℕ)) 0 =
      2 * ∑ t : Fin n, cond (r t.succ) (2 ^ (t : ℕ)) 0 := by
    rw [Finset.mul_sum]
    refine Finset.sum_congr rfl fun t _ => ?_
    cases r t.succ <;> simp [pow_succ, Nat.mul_comm]
  rw [h0, hs]

theorem bits_to_index_le_injective {N : ℕ} : Function.Injective (bits_to_index_le (N := N)) := by
  induction N with
  | zero =>
    intro r s _
    funext t
    exact t.elim0
  | succ n ih =>
    intro r s h
    rw [bits_to_index_le_succ, bits_to_index_le_succ] at h
    have h0 : r 0 = s 0 := by
      cases hr : r 0 <;> cases hs : s 0 <;> rw [hr, hs] at h <;> simp at h <;>
        first
        | rfl
        | omega
    have hAB : bits_to_index_le (fun t : Fin n => r t.succ) =
        bits_to_index_le (fun t : Fin n => s t.succ) := by
      rw [h0] at h
      cases hs0 : s 0 <;> rw [hs0] at h <;> simp at h <;> omega
    have htail := ih hAB
    funext t
    refine Fin.cases ?_ ?_ t
    · exact h0
    · intro i
      exact congrFun htail i

theorem bits_to_index_eq_le {N : ℕ} (r : Fin N → Bool) :
    bits_to_index r = bits_to_index_le (fun u => r (Fin.rev u)) := by
  unfold bits_to_index bits_to_index_le
  refine Fintype.sum_equiv (Fin.revPerm) _ _ fun t => ?_
  simp only [Fin.revPerm_apply, Fin.rev_rev]
  have hv : ((Fin.rev t : Fin N) : ℕ) = N - 1 - (t : ℕ) := by
    rw [Fin.val_rev]
    omega
  rw [hv]

theorem bits_to_index_injective {N : ℕ} : Function.Injective (bits_to_index (N := N)) := by
  intro r s h
  rw [bits_to_index_eq_le r, bits_to_index_eq_le s] at h
  have := bits_to_index_le_injective h
  funext j
  have hj := congrFun this (Fin.rev j)
  simpa [Fin.rev_rev] using hj

theorem target_bits_cons {N : ℕ} (b : ℕ) (bs : List ℕ) (w : Fin N) (ws : List (Fin N)) :
    target_bits (b :: bs) (w :: ws) = Function.update (target_bits bs ws) w (b == 1) := by
  funext j
  unfold target_bits
  by_cases hj : w = j
  · subst hj
    rw [List.zip_cons_cons, List.find?_cons_of_pos _ (by simp)]
    simp [Function.update_same]
  · rw [List.zip_cons_cons, List.find?_cons_of_neg _ (by simpa using hj)]
    simp [Function.update_noteq (Ne.symm hj)]

theorem target_bits_not_mem {N : ℕ} (bits : List ℕ) (ws : List (Fin N)) (j : Fin N)
    (hj : j ∉ ws) : target_bits bits ws j = false := by
  unfold target_bits
  cases hf : (bits.zip ws).find? (fun p => p.2 == j) with
  | none => rfl
  | some p =>
    have hp := List.find?_some hf
    have hmem := List.mem_of_find?_eq_some hf
    have : p.2 ∈ ws := (List.of_mem_zip hmem).2
    have : j ∈ ws := by
      have hpj : p.2 = j := by simpa using hp
      rwa [hpj] at this
    exact absurd this hj

theorem bits_to_index_update {N : ℕ} (e : Fin N → Bool) (w : Fin N)
    (hw : e w = false) (v : Bool) :
    bits_to_index (Function.update e w v) =
      cond v (2 ^ (N - 1 - (w : ℕ))) 0 + bits_to_index e := by
  unfold bits_to_index
  have hfun : (fun t => cond (Function.update e w v t) (2 ^ (N - 1 - (t : ℕ))) 0) =
      Function.update (fun t => cond (e t) (2 ^ (N - 1 - (t : ℕ))) 0) w
        (cond v (2 ^ (N - 1 - (w : ℕ))) 0) := by
    funext t
    by_cases ht : t = w
    · subst ht; simp [Function.update_same]
    · simp [Function.update_noteq ht]
  calc ∑ t : Fin N, cond (Function.update e w v t) (2 ^ (N - 1 - (t : ℕ))) 0
      = ∑ t : Fin N, Function.update (fun t => cond (e t) (2 ^ (N - 1 - (t : ℕ))) 0) w
          (cond v (2 ^ (N - 1 - (w : ℕ))) 0) t := by rw [hfun]
    _ = cond v (2 ^ (N - 1 - (w : ℕ))) 0 +
          ∑ t ∈ Finset.univ \ {w}, cond (e t) (2 ^ (N - 1 - (t : ℕ))) 0 :=
        Finset.sum_update_of_mem (Finset.mem_univ w)
          (fun t => cond (e t) (2 ^ (N - 1 - (t : ℕ))) 0)
          (cond v (2 ^ (N - 1 - (w : ℕ))) 0)
    _ = cond v (2 ^ (N - 1 - (w : ℕ))) 0 + ∑ t : Fin N, cond (e t) (2 ^ (N - 1 - (t : ℕ))) 0 := by
        congr 1
        rw [Finset.sdiff_singleton_eq_erase]
        rw [← Finset.add_sum_erase _ _ (Finset.mem_univ w), hw]
        simp

theorem bits_to_index_target {N : ℕ} :
    ∀ (bits : List ℕ) (ws : List (Fin N)), (∀ b ∈ bits, b = 0 ∨ b = 1) → ws.Nodup →
      bits.length = ws.length →
      bits_to_index (target_bits bits ws) = basis_index bits ws := by
  intro bits
  induction bits with
  | nil =>
    intro ws _ _ _
    have : target_bits ([] : List ℕ) ws = fun _ => false := by
      funext j; unfold target_bits; simp
    rw [this]
    simp [bits_to_index, basis_index]
  | cons b bs ih =>
    intro ws hb hnd hlen
    cases ws with
    | nil => simp at hlen
    | cons w ws' =>
      have hw_not : w ∉ ws' := (List.nodup_cons.mp hnd).1
      have hnd' : ws'.Nodup := (List.nodup_cons.mp hnd).2
      rw [target_bits_cons,
        bits_to_index_update _ w (target_bits_not_mem bs ws' w hw_not) (b == 1),
        ih ws' (fun x hx => hb x (List.mem_cons_of_mem _ hx)) hnd' (by simpa using hlen)]
      have hcond : cond (b == 1) (2 ^ (N - 1 - (w : ℕ))) 0 = b * 2 ^ (N - 1 - (w : ℕ)) := by
        rcases hb b (List.mem_cons_self b bs) with rfl | rfl <;> simp
      rw [hcond]
      simp [basis_index]

/-- C9: invalid bits or a length mismatch fail with the source's error
messages; on valid input the device state becomes the pure projector
`|target⟩⟨target|` where wire `ws[i]` carries bit `bits[i]` (big-endian
positional weighting over device-mapped wires) and all other wires carry 0. -/
theorem apply_basis_state_spec (N : ℕ) (R : Type) [CommRing R] :
    (∀ (bits : List ℕ) (ws : List (Fin N)), (∃ b ∈ bits, b ≠ 0 ∧ b ≠ 1) →
        _apply_basis_state R bits ws =
          Except.error "BasisState parameter must consist of 0 or 1 integers.") ∧
      (∀ (bits : List ℕ) (ws : List (Fin N)), (∀ b ∈ bits, b = 0 ∨ b = 1) →
        bits.length ≠ ws.length →
        _apply_basis_state R bits ws =
          Except.error "BasisState parameter and wires must be of equal length.") ∧
      (∀ (bits : List ℕ) (ws : List (Fin N)), (∀ b ∈ bits, b = 0 ∨ b = 1) →
        bits.length = ws.length → ws.Nodup →
        _apply_basis_state R bits ws =
          Except.ok (basis_projector R (target_bits bits ws))) := by
  refine ⟨?_, ?_, ?_⟩
  · intro bits ws h
    have hbad : ¬ (∀ b ∈ bits, b = 0 ∨ b = 1) := by
      obtain ⟨b, hmem, h0, h1⟩ := h
      intro hall
      rcases hall b hmem with rfl | rfl
      · exact h0 rfl
      · exact h1 rfl
    unfold _apply_basis_state
    rw [if_pos hbad]
  · intro bits ws hgood hlen
    unfold _apply_basis_state
    rw [if_neg (not_not_intro hgood), if_pos hlen]
  · intro bits ws hgood hlen hnd
    unfold _apply_basis_state
    rw [if_neg (not_not_intro hgood), if_neg (by simp [hlen])]
    congr 1
    funext r c
    unfold _create_basis_state basis_projector
    have key : ∀ x : Fin N → Bool,
        bits_to_index x = basis_index bits ws ↔ x = target_bits bits ws := by
      intro x
      constructor
      · intro hx
        apply bits_to_index_injective
        rw [hx, bits_to_index_target bits ws hgood hnd hlen]
      · rintro rfl
        exact bits_to_index_target bits ws hgood hnd hlen
    rw [if_congr (and_congr (key r) (key c)) rfl rfl]

theorem apply_basis_state_spec_witness :
    (_apply_basis_state (N := 3) ℤ [2] [0] =
        Except.error "BasisState parameter must consist of 0 or 1 integers.") ∧
      (_apply_basis_state (N := 3) ℤ [1] [] =
        Except.error "BasisState parameter and wires must be of equal length.") ∧
      (_apply_basis_state (N := 3) ℤ [1, 0, 1] [0, 1, 2] =
        Except.ok (basis_projector ℤ (target_bits [1, 0, 1] [0, 1, 2]))) :=
  ⟨(apply_basis_state_spec 3 ℤ).1 [2] [0] (by decide),
    (apply_basis_state_spec 3 ℤ).2.1 [1] [] (by decide) (by decide),
    (apply_basis_state_spec 3 ℤ).2.2 [1, 0, 1] [0, 1, 2] (by decide) rfl (by decide)⟩

end C9Proof

/-- An operation record as dispatched by `DefaultMixed._apply_operation`
(default_mixed.py:757-795).  State preparations carry the state they install;
`qubitDensityMatrix` may depend on the current state (partial-wire
composition, cf. `_apply_density_matrix`); a generic channel is a state
transformer tagged with its operation name. -/
inductive OpRecord (N : ℕ) (R : Type) where
  | identity
  | snapshotOp
  | statePrep (s : DTensor N R)
  | basisStateOp (s : DTensor N R)
  | qubitDensityMatrix (f : DTensor N R → DTensor N R)
  | channelOp (tyname : String) (f : DTensor N R → DTensor N R)

def op_name {N : ℕ} {R : Type} : OpRecord N R → String
  | .identity => "Identity"
  | .snapshotOp => "Snapshot"
  | .statePrep _ => "StatePrep"
  | .basisStateOp _ => "BasisState"
  | .qubitDensityMatrix _ => "QubitDensityMatrix"
  | .channelOp ty _ => ty

/-- Embedding of `isinstance(operation, (StatePrep, BasisState))` — the class tuple of the
ordering check in `DefaultMixed.apply` (default_mixed.py:861); note that
`QubitDensityMatrix` is not in it. -/
def is_state_prep_or_basis {N : ℕ} {R : Type} : OpRecord N R → Bool
  | .statePrep _ => true
  | .basisStateOp _ => true
  | _ => false

/-- One step of `DefaultMixed._apply_operation`. -/
def _apply_operation {N : ℕ} {R : Type} (ρ : DTensor N R) : OpRecord N R → DTensor N R
  | .identity => ρ
  | .snapshotOp => ρ
  | .statePrep s => s
  | .basisStateOp s => s
  | .qubitDensityMatrix f => f ρ
  | .channelOp _ f => f ρ

/-- The ordering check of `DefaultMixed.apply` (default_mixed.py:860-865):
`if i > 0 and isinstance(operation, (StatePrep, BasisState)): raise` — the
first offending operation at index ≥ 1, if any. -/
def apply_check {N : ℕ} {R : Type} (operations : List (OpRecord N R)) :
    Option (OpRecord N R) :=
  match operations with
  | [] => none
  | _ :: rest => rest.find? is_state_prep_or_basis

/-- Embedding of `DefaultMixed.apply` (default_mixed.py:855-881), restricted to the
check-then-apply structure relevant here: the whole check loop runs before any
operation is applied, then the operations fold over the state, then the
rotations.  (The pre-rotated-state bookkeeping and readout bit-flips are
orthogonal to the ordering claim.) -/
def apply {N : ℕ} {R : Type} (operations rotations : List (OpRecord N R))
    (ρ : DTensor N R) : Except String (DTensor N R) :=
  match apply_check operations with
  | some op =>
    Except.error ("Operation " ++ op_name op ++
      " cannot be used after other Operations have already been applied on a default.mixed device.")
  | none =>
    Except.ok (rotations.foldl _apply_operation (operations.foldl _apply_operation ρ))

section C3Proof

def c3_rho : DTensor 1 ℤ := fun _ _ => 0

def c3_ops : List (OpRecord 1 ℤ) :=
  [OpRecord.channelOp "PauliX" id, OpRecord.qubitDensityMatrix id]

/-- C3 counterexample: a `QubitDensityMatrix` appearing *after* another
operation is not rejected — `apply` succeeds, contradicting the claim that
all three preparation types raise a `DeviceError` when not first. -/
theorem apply_qdm_after_gate_no_error :
    apply c3_ops [] c3_rho = Except.ok c3_rho := rfl

/-- C3 (amended): a `StatePrep` or `BasisState` at any position after the
first operation makes `apply` fail with the source's `DeviceError` message,
independently of the state and the rotations — the check runs before any
state mutation.  (`QubitDensityMatrix` is not subject to this check.) -/
theorem apply_rejects_late_state_prep {N : ℕ} {R : Type}
    (operations : List (OpRecord N R))
    (h : ∃ op ∈ operations.drop 1, is_state_prep_or_basis op = true) :
    ∃ op', apply_check operations = some op' ∧ is_state_prep_or_basis op' = true ∧
      ∀ (ρ' : DTensor N R) (rotations' : List (OpRecord N R)),
        apply operations rotations' ρ' =
          Except.error ("Operation " ++ op_name op' ++
            " cannot be used after other Operations have already been applied on a default.mixed device.") := by
  match operations with
  | [] =>
    obtain ⟨op, hmem, _⟩ := h
    simp at hmem
  | op₀ :: rest =>
    have hdrop : (op₀ :: rest).drop 1 = rest := rfl
    rw [hdrop] at h
    obtain ⟨op, hmem, hpred⟩ := h
    have hsome : (rest.find? is_state_prep_or_basis).isSome :=
      List.find?_isSome.mpr ⟨op, hmem, hpred⟩
    obtain ⟨op', hfind⟩ := Option.isSome_iff_exists.mp hsome
    refine ⟨op', hfind, List.find?_some hfind, fun ρ' rotations' => ?_⟩
    have hchk : apply_check (op₀ :: rest) = some op' := hfind
    unfold apply
    rw [hchk]

def c3w_rho : DTensor 1 ℤ := fun _ _ => 1

def c3w_ops : List (OpRecord 1 ℤ) :=
  [OpRecord.channelOp "PauliX" id, OpRecord.basisStateOp c3w_rho]

theorem apply_rejects_late_state_prep_witness :
    ∃ op', apply_check c3w_ops = some op' ∧ is_state_prep_or_basis op' = true ∧
      ∀ (ρ' : DTensor 1 ℤ) (rotations' : List (OpRecord 1 ℤ)),
        apply c3w_ops rotations' ρ' =
          Except.error ("Operation " ++ op_name op' ++
            " cannot be used after other Operations have already been applied on a default.mixed device.") :=
  apply_rejects_late_state_prep c3w_ops
    ⟨OpRecord.basisStateOp c3w_rho, by simp [c3w_ops], rfl⟩

end C3Proof

/-- The `wires` constructor argument of `DefaultMixed.__init__` /
`DefaultMixedNewAPI.__init__`: either an integer count or an iterable of
wire labels. -/
inductive WiresInput where
  | count (n : ℕ)
  | labels (ls : List ℕ)

section C4Proof

/-- The wire-limit guard of `DefaultMixed.__init__` (default_mixed.py:282-285):
`if isinstance(wires, int) and wires > 23: raise ValueError(...)`.  Returns
whether the guard raises. -/
def wires_over_limit : WiresInput → Bool
  | .count n => decide (23 < n)
  | .labels _ => false

/-- The guard of `DefaultMixedNewAPI.__init__` (default_mixed.py:925-928) runs the
textually identical guard. -/
def wires_over_limit_new_api : WiresInput → Bool := wires_over_limit

/-- C4 counterexample: a device constructed with an explicit list of 24 wire
labels passes the guard in both `DefaultMixed.__init__` and
`DefaultMixedNewAPI.__init__` — only the integer-count form is checked. -/
theorem wire_limit_misses_label_lists :
    wires_over_limit (WiresInput.labels (List.range 24)) = false ∧
      wires_over_limit_new_api (WiresInput.labels (List.range 24)) = false ∧
      (List.range 24).length = 24 :=
  ⟨rfl, rfl, by simp⟩

/-- C4 (amended): the construction guard raises exactly for an *integer* wire
count above 23 (in both device classes); an explicit label list of any length
is never rejected by this guard. -/
theorem wire_limit_int_only (n : ℕ) (h : 23 < n) :
    wires_over_limit (WiresInput.count n) = true ∧
      wires_over_limit_new_api (WiresInput.count n) = true ∧
      ∀ ls, wires_over_limit (WiresInput.labels ls) = false := by
  refine ⟨?_, ?_, fun ls => rfl⟩
  · simpa [wires_over_limit] using h
  · simpa [wires_over_limit_new_api, wires_over_limit] using h

theorem wire_limit_int_only_witness :
    23 < 24 ∧
      (wires_over_limit (WiresInput.count 24) = true ∧
        wires_over_limit_new_api (WiresInput.count 24) = true ∧
        ∀ ls, wires_over_limit (WiresInput.labels ls) = false) :=
  ⟨by decide, wire_limit_int_only 24 (by decide)⟩

end C4Proof

/-- The measurement carried by a `Snapshot` operation
(`operation.hyperparameters["measurement"]`). -/
inductive MeasKind where
  | stateK
  | densityMatrixK
  | purityK
  | probabilityK
  | expectationK
  | varianceK
  | vnEntropyK
  | mutualInfoK
  | unsupportedK (tyname : String)

/-- A snapshot measurement: its kind plus the diagonalizing gates
(`measurement.diagonalizing_gates()`, external operator data) as the state
transformers `self._apply_operation(diag_gate)` effects. -/
structure SnapMeasurement (N : ℕ) (R : Type) where
  kind : MeasKind
  diagGates : List (DTensor N R → DTensor N R)

/-- The kinds for which `_snapshot_measurements` applies diagonalizing
rotations (`isinstance(measurement, (ProbabilityMP, ExpectationMP,
VarianceMP))`, default_mixed.py:687). -/
def needs_rotation : MeasKind → Bool
  | .probabilityK => true
  | .expectationK => true
  | .varianceK => true
  | _ => false

section C6Proof

variable {N : ℕ} {R : Type}

/-- Embedding of `DefaultMixed._snapshot_measurements` (default_mixed.py:682-740): save
`pre_rotated_state = self._state`; for Probability/Expectation/Variance apply
the diagonalizing gates to the working tensor; unsupported measurement kinds
raise the source's `DeviceError`; otherwise finish with
`self._state = pre_rotated_state; self._pre_rotated_state = self._state`.
Returns the final device state together with the tensor the measurement read
(the rotated working tensor for the rotating kinds, the saved one
otherwise). -/
def _snapshot_measurements (d : DeviceState N R) (m : SnapMeasurement N R) :
    Except String (DeviceState N R × DTensor N R) :=
  let pre := d._state
  let working :=
    if needs_rotation m.kind then m.diagGates.foldl (fun s g => g s) d._state
    else d._state
  match m.kind with
  | .unsupportedK ty =>
    Except.error ("Snapshots of " ++ ty ++ " are not yet supported on default.mixed")
  | _ => Except.ok ({ _state := pre, _pre_rotated_state := pre }, working)

/-- Embedding of `DefaultMixed._apply_snapshot` (default_mixed.py:742-755): without an
active debugger nothing at all happens; with one, `_snapshot_measurements`
runs and its result is recorded in the debugger. -/
def _apply_snapshot (debugger_active : Bool) (d : DeviceState N R)
    (m : SnapMeasurement N R) : Except String (DeviceState N R) :=
  if debugger_active then
    match _snapshot_measurements d m with
    | Except.error e => Except.error e
    | Except.ok (d', _result) => Except.ok d'
  else
    Except.ok d

def c6_s0 : DTensor 1 ℤ := fun _ _ => 0

def c6_s1 : DTensor 1 ℤ := fun _ _ => 1

def c6_meas : SnapMeasurement 1 ℤ := ⟨MeasKind.probabilityK, []⟩

/-- C6 counterexample: with an active debugger and a Probability snapshot on a
device whose `_pre_rotated_state` (here `c6_s0`) differs from `_state` (here
`c6_s1`), the snapshot sets `_pre_rotated_state` to the pre-snapshot `_state`
— it is *not* restored to its own value immediately before the snapshot. -/
theorem snapshot_clobbers_pre_rotated :
    _apply_snapshot true ⟨c6_s1, c6_s0⟩ c6_meas = Except.ok ⟨c6_s1, c6_s1⟩ ∧
      c6_s1 ≠ c6_s0 := by
  refine ⟨rfl, fun h => ?_⟩
  have h1 := congrFun (congrFun h (fun _ => false)) (fun _ => false)
  simp [c6_s1, c6_s0] at h1

/-- C6 (amended): a Snapshot with no active debugger is a complete no-op on
the device state; with an active debugger and any supported measurement the
working tensor is restored to its pre-snapshot value and the pre-rotation
reference is set to that same pre-snapshot working tensor (which may differ
from the reference's own previous value); an unsupported measurement kind
raises a `DeviceError` naming the type. -/
theorem snapshot_state_effects :
    (∀ (d : DeviceState N R) (m : SnapMeasurement N R),
        _apply_snapshot false d m = Except.ok d) ∧
      (∀ (d : DeviceState N R) (m : SnapMeasurement N R),
        (∀ ty, m.kind ≠ MeasKind.unsupportedK ty) →
        _apply_snapshot true d m = Except.ok ⟨d._state, d._state⟩) ∧
      (∀ (d : DeviceState N R) (ty : String) (gates : List (DTensor N R → DTensor N R)),
        _apply_snapshot true d ⟨MeasKind.unsupportedK ty, gates⟩ =
          Except.error ("Snapshots of " ++ ty ++ " are not yet supported on default.mixed")) := by
  refine ⟨fun d m => rfl, fun d m hm => ?_, fun d ty gates => rfl⟩
  unfold _apply_snapshot _snapshot_measurements
  cases hk : m.kind with
  | unsupportedK ty => exact absurd hk (hm ty)
  | _ => simp [hk]

theorem snapshot_state_effects_witness :
    (_apply_snapshot false ⟨c6_s1, c6_s0⟩ c6_meas = Except.ok ⟨c6_s1, c6_s0⟩) ∧
      (_apply_snapshot true ⟨c6_s1, c6_s0⟩ c6_meas = Except.ok ⟨c6_s1, c6_s1⟩) ∧
      (_apply_snapshot true (⟨c6_s1, c6_s0⟩ : DeviceState 1 ℤ)
          ⟨MeasKind.unsupportedK "ClassicalShadowMP", []⟩ =
        Except.error "Snapshots of ClassicalShadowMP are not yet supported on default.mixed") :=
  ⟨(snapshot_state_effects (N := 1) (R := ℤ)).1 ⟨c6_s1, c6_s0⟩ c6_meas,
    (snapshot_state_effects (N := 1) (R := ℤ)).2.1 ⟨c6_s1, c6_s0⟩ c6_meas
      (fun ty h => MeasKind.noConfusion h),
    (snapshot_state_effects (N := 1) (R := ℤ)).2.2 ⟨c6_s1, c6_s0⟩ "ClassicalShadowMP" []⟩

end C6Proof

/-- A measurement process record, as inspected by `DefaultMixed.execute`
(default_mixed.py:830-853).  `stateLike` covers `StateMP` and its subclass
`DensityMatrixMP` (both satisfy `isinstance(m, StateMP)`); `otherMP` is any
remaining measurement (probability, expectation, variance, ...) with its
wires. -/
inductive MeasurementProc where
  | stateLike (ws : List ℕ)
  | sample (ws : List ℕ)
  | counts (ws : List ℕ)
  | vnEntropy (ws : List ℕ)
  | mutualInfo (ws : List ℕ)
  | otherMP (ws : List ℕ)
deriving DecidableEq

section C7Proof

def mp_wires : MeasurementProc → List ℕ
  | .stateLike ws => ws
  | .sample ws => ws
  | .counts ws => ws
  | .vnEntropy ws => ws
  | .mutualInfo ws => ws
  | .otherMP ws => ws

def is_state_like : MeasurementProc → Bool
  | .stateLike _ => true
  | _ => false

/-- Embedding of `isinstance(m, (SampleMP, CountsMP)) and m.wires in (Wires([]), self.wires)`
(default_mixed.py:838-841). -/
def is_full_sample_counts (device_wires : List ℕ) : MeasurementProc → Bool
  | .sample ws => ws == [] || ws == device_wires
  | .counts ws => ws == [] || ws == device_wires
  | _ => false

def is_entropy_like : MeasurementProc → Bool
  | .vnEntropy _ => true
  | .mutualInfo _ => true
  | _ => false

/-- Modelled from the spec: `qml.wires.Wires.all_wires(wires_list)`
(default_mixed.py:852) lives outside this file; spec §4.5: "accumulate the
union of wires touched by all remaining measurements" — ordered union keeping
first occurrences. -/
def union_wires (ls : List (List ℕ)) : List ℕ :=
  ls.foldl (fun acc ws => ws.foldl (fun a x => if a.contains x then a else a ++ [x]) acc) []

/-- The measurement scan of `DefaultMixed.execute` (default_mixed.py:830-853),
exactly as the source loop runs it: the first `StateMP`-like measurement
returns with no measured wires, the first full-register (or unspecified)
sample/count measurement returns with all device wires, entropy-type
measurements are skipped, every other measurement's wires are accumulated,
and at the end the union of the accumulated wire lists is taken. -/
def execute_measured_wires_go (device_wires : List ℕ) :
    List MeasurementProc → List (List ℕ) → List ℕ
  | [], acc => union_wires acc
  | m :: rest, acc =>
    if is_state_like m then []
    else if is_full_sample_counts device_wires m then device_wires
    else if is_entropy_like m then execute_measured_wires_go device_wires rest acc
    else execute_measured_wires_go device_wires rest (acc ++ [mp_wires m])

/-- The list `self.measured_wires` as computed by `DefaultMixed.execute` when a
readout error is configured. -/
def execute_measured_wires (device_wires : List ℕ) (ms : List MeasurementProc) :
    List ℕ :=
  execute_measured_wires_go device_wires ms []

/-- The MeasuredWires set exactly as the claim words it: empty when *any*
measurement is a full-state measurement; all device wires when *any*
sample/count measurement targets the full register or leaves wires
unspecified; otherwise the union of the remaining measurements' wires, with
entropy-type measurements contributing nothing. -/
def measured_wires_claimed (device_wires : List ℕ) (ms : List MeasurementProc) :
    List ℕ :=
  if ms.any is_state_like then []
  else if ms.any (is_full_sample_counts device_wires) then device_wires
  else union_wires ((ms.filter (fun m => ! is_entropy_like m)).map mp_wires)

/-- The scan as the code actually behaves (first trigger wins, in measurement
order): the first measurement that is either state-like or a full-register
sample/count decides the result. -/
def measured_wires_amended (device_wires : List ℕ) (ms : List MeasurementProc) :
    List ℕ :=
  match ms.find? (fun m => is_state_like m || is_full_sample_counts device_wires m) with
  | some m => if is_state_like m then [] else device_wires
  | none => union_wires ((ms.filter (fun m => ! is_entropy_like m)).map mp_wires)

/-- C7 counterexample: with device wires `[0]` and measurements
`[Sample(all), State]`, the code returns all device wires (the sample
measurement is scanned first), while the claim — "empty if any measurement is
a full-state measurement" — demands the empty set. -/
theorem measured_wires_order_dependent :
    execute_measured_wires [0] [MeasurementProc.sample [0], MeasurementProc.stateLike []] =
        [0] ∧
      measured_wires_claimed [0]
          [MeasurementProc.sample [0], MeasurementProc.stateLike []] = [] ∧
      ([0] : List ℕ) ≠ [] := by
  refine ⟨rfl, rfl, by decide⟩

theorem execute_measured_wires_go_spec (device_wires : List ℕ)
    (ms : List MeasurementProc) : ∀ acc : List (List ℕ),
    execute_measured_wires_go device_wires ms acc =
      match ms.find? (fun m => is_state_like m || is_full_sample_counts device_wires m) with
      | some m => if is_state_like m then [] else device_wires
      | none =>
        union_wires (acc ++ (ms.filter (fun m => ! is_entropy_like m)).map mp_wires) := by
  induction ms with
  | nil => intro acc; simp [execute_measured_wires_go]
  | cons m rest ih =>
    intro acc
    by_cases h1 : is_state_like m = true
    · rw [List.find?_cons_of_pos _ (by simp [h1])]
      simp [execute_measured_wires_go, h1]
    · by_cases h2 : is_full_sample_counts device_wires m = true
      · rw [List.find?_cons_of_pos _ (by simp [h2])]
        simp [execute_measured_wires_go, h1, h2]
      · rw [List.find?_cons_of_neg _ (by simp [h1, h2])]
        by_cases h3 : is_entropy_like m = true
        · rw [show execute_measured_wires_go device_wires (m :: rest) acc =
              execute_measured_wires_go device_wires rest acc by
            simp [execute_measured_wires_go, h1, h2, h3]]
          rw [ih acc]
          simp [List.filter_cons, h3]
        · rw [show execute_measured_wires_go device_wires (m :: rest) acc =
              execute_measured_wires_go device_wires rest (acc ++ [mp_wires m]) by
            simp [execute_measured_wires_go, h1, h2, h3]]
          rw [ih (acc ++ [mp_wires m])]
          cases hf : rest.find?
              (fun m => is_state_like m || is_full_sample_counts device_wires m) with
          | none => simp [List.filter_cons, h3]
          | some m' => simp

/-- C7 (amended): the MeasuredWires computation is the in-order scan — the
*first* measurement that is state-like or a full-register sample/count decides
(empty set resp. all device wires); only when no such measurement exists is
the result the union of the non-entropy measurements' wires. -/
theorem measured_wires_first_trigger (device_wires : List ℕ)
    (ms : List MeasurementProc) :
    execute_measured_wires device_wires ms = measured_wires_amended device_wires ms := by
  unfold execute_measured_wires measured_wires_amended
  rw [execute_measured_wires_go_spec device_wires ms []]
  rfl

end C7Proof

section C10Proof

/-- All assignments of `k` selected wires, in the row-major order the
marginalized probability vector is indexed by. -/
def allBitVecs : ℕ → List (List Bool)
  | 0 => [[]]
  | n + 1 =>
    ((allBitVecs n).map (fun bs => false :: bs)) ++
      ((allBitVecs n).map (fun bs => true :: bs))

def matches_on {N : ℕ} (sel : List (Fin N)) (bs : List Bool) (r : Fin N → Bool) : Bool :=
  (sel.zip bs).all (fun p => r p.1 == p.2)

/-- Modelled from the spec: `self.marginal_prob` (inherited from
`QubitDevice`, outside this file); spec §4.4: "marginalize over non-selected
wires" — each selected-wire assignment's probability is the sum of the
diagonal entries compatible with it. -/
def marginal_prob {N : ℕ} {R : Type} [CommRing R] (p : (Fin N → Bool) → R)
    (sel : List (Fin N)) : List R :=
  (allBitVecs sel.length).map
    (fun bs => ∑ r : Fin N → Bool, if matches_on sel bs r then p r else 0)

/-- Embedding of `DefaultMixed.analytic_probability` (default_mixed.py:373-386): `None`
when no state is set; otherwise reshape to matrix form, take the diagonal,
marginalize, take the real part (`re` abstracts the backend's `qnp.real`) and
reflect negative values (`qnp.where(probs < 0, -probs, probs)`). -/
def analytic_probability {N : ℕ} {R Q : Type} [CommRing R] [Neg Q] [Zero Q] [LinearOrder Q]
    (re : R → Q) (state : Option (DTensor N R)) (sel : List (Fin N)) :
    Option (List Q) :=
  match state with
  | none => none
  | some ρ =>
    some (((marginal_prob (fun r => ρ r r) sel).map
      (fun z => if re z < 0 then -(re z) else re z)))

/-- C10: an unset state makes `analytic_probability` return `None` (no raise,
no numeric array); every set state yields `Some` of the vector computed from
the diagonal of the matrix-form state. -/
theorem analytic_probability_none_behavior {N : ℕ} {R Q : Type} [CommRing R]
    [Neg Q] [Zero Q] [LinearOrder Q] (re : R → Q) (sel : List (Fin N)) :
    analytic_probability re (none : Option (DTensor N R)) sel = none ∧
      ∀ ρ : DTensor N R,
        analytic_probability re (some ρ) sel =
          some (((marginal_prob (fun r => ρ r r) sel).map
            (fun z => if re z < 0 then -(re z) else re z))) :=
  ⟨rfl, fun ρ => rfl⟩

end C10Proof

end DefaultMixed
